import Mathlib

/-!
Verification of the grouped z-score / anomaly-detection pipeline authored in
the Arkouda taxi tutorial notebooks (`clean_tutorial_nyc_taxi_parquet.ipynb`
and the unnamed lightning-tutorial notebook).

A column is a `List ℚ` (exact rational arithmetic stands in for the float
arithmetic of the notebook), and the grouping key column is a `List K` for an
arbitrary decidable-equality key type `K` (in the notebooks the key is the
pair of `PULocationID` and `DOLocationID`).  The Arkouda primitives
(`ak.GroupBy`, `GroupBy.mean`, `GroupBy.sum`, `GroupBy.size`,
`GroupBy.broadcast`, boolean-mask indexing, `argmax`) live in the external
Arkouda service and are modelled from the spec's external-interface contract;
the formulas built on top of them (`mf`, `sf`, `fare_mean`, `fare_std`,
`fare_z`, `exorbitant`, the mask-comprehension DataFrame rebuild, and
`cvt_to_string`) are translated directly from the notebook cells.
-/

/-- Modelled from the spec: the rows of one group.  A grouping assigns each
row to the group keyed by that row's key value, so the rows of group `k` are
the (key, value) pairs of the table whose key equals `k`, in row order. -/
def groupRows {K : Type} [DecidableEq K] (keys : List K) (vals : List ℚ) (k : K) :
    List (K × ℚ) :=
  (keys.zip vals).filter (fun p => decide (p.1 = k))

/-- Modelled from the spec: the target-column values of one group, in row
order. -/
def groupVals {K : Type} [DecidableEq K] (keys : List K) (vals : List ℚ) (k : K) :
    List ℚ :=
  (groupRows keys vals k).map Prod.snd

/-- Modelled from the spec: `GroupBy.size` / `w` — the number of rows of
group `k`. -/
def groupCount {K : Type} [DecidableEq K] (keys : List K) (k : K) : ℕ :=
  keys.count k

/-- Modelled from the spec: `GroupBy.sum` — the per-group sum aggregate of a
target column. -/
def groupSum {K : Type} [DecidableEq K] (keys : List K) (vals : List ℚ) (k : K) : ℚ :=
  (groupVals keys vals k).sum

/-- Modelled from the spec: the ordered set of unique group keys (a
deterministic order; here first occurrence). -/
def uniqueKeys {K : Type} [DecidableEq K] (keys : List K) : List K :=
  keys.dedup

/-- Modelled from the spec: `GroupBy.broadcast(per_group_value, permute=True)`
— the gather that maps a per-group value back onto every row of the group,
preserving the source row order and count. -/
def broadcast {K : Type} (keys : List K) (f : K → ℚ) : List ℚ :=
  keys.map f

/-- Notebook: `_, mf = byloc.mean(data['fare_amount'])` — the per-group mean
of the fare column (`GroupBy.mean` modelled as sum over count). -/
def mf {K : Type} [DecidableEq K] (keys : List K) (fare : List ℚ) (k : K) : ℚ :=
  groupSum keys fare k / (groupCount keys k : ℚ)

/-- Notebook: `sf = (byloc.sum(data['fare_amount']**2)[1] / w) - mf**2` — the
value the notebook stores as `fare_std`: the two-moment quantity
sum-of-squares over count minus the squared mean.  No square root is taken
and no clamping is applied anywhere in the notebook. -/
def sf {K : Type} [DecidableEq K] (keys : List K) (fare : List ℚ) (k : K) : ℚ :=
  groupSum keys (fare.map (fun x => x ^ 2)) k / (groupCount keys k : ℚ)
    - (mf keys fare k) ^ 2

/-- Notebook: `data['fare_mean'] = byloc.broadcast(mf, permute=True)`. -/
def fare_mean {K : Type} [DecidableEq K] (keys : List K) (fare : List ℚ) : List ℚ :=
  broadcast keys (mf keys fare)

/-- Notebook: `data['fare_std'] = byloc.broadcast(sf, permute=True)`. -/
def fare_std {K : Type} [DecidableEq K] (keys : List K) (fare : List ℚ) : List ℚ :=
  broadcast keys (sf keys fare)

/-- Notebook: `data['fare_z'] = (data['fare_amount'] - data['fare_mean']) /
(data['fare_std'] + 1)`, elementwise over the three columns. -/
def fare_z {K : Type} [DecidableEq K] (keys : List K) (fare : List ℚ) : List ℚ :=
  List.zipWith (fun d s => d / (s + 1))
    (List.zipWith (fun x m => x - m) fare (fare_mean keys fare))
    (fare_std keys fare)

/-- Modelled from the spec: `Column.argmax` — the index of the row holding
the maximum value, first occurrence in row order on ties (`0` on an empty
column). -/
def argmax (xs : List ℚ) : ℕ :=
  (List.range xs.length).foldl
    (fun best i => if xs.getD best 0 < xs.getD i 0 then i else best) 0

/-- Modelled from the spec: boolean-mask row filtering of one column — keep,
in order, the entries whose mask bit is true. -/
def maskFilter {α : Type} (mask : List Bool) (col : List α) : List α :=
  ((mask.zip col).filter (fun p => p.1)).map Prod.snd

/-- Notebook: `non_neg = data['fare_amount'] >= 0` — the elementwise
non-negative-fare mask. -/
def non_neg (fare : List ℚ) : List Bool :=
  fare.map (fun x => decide (0 ≤ x))

/-- Notebook: `exorbitant = (data['fare_z'] > 2)` — the elementwise threshold
mask over the z-score column. -/
def exorbitant (zs : List ℚ) : List Bool :=
  zs.map (fun z => decide (2 < z))

/-- Notebook: `ak.DataFrame({k: v[mask] for k, v in data.items()})` (and the
analogous `pd.DataFrame` comprehension for `exorbitant`) — build a new table
by applying one mask to every column of the source table. -/
def filterTable (mask : List Bool) (tbl : List (String × List ℚ)) :
    List (String × List ℚ) :=
  tbl.map (fun c => (c.1, maskFilter mask c.2))

/-- A Python value as seen by `cvt_to_string`: the dynamic comparison
`v == ''` and the conversion `str(v)` may each either return normally or
raise, which the shallow embedding records as `Except`-valued results. -/
structure PyVal where
  eqEmpty : Except String Bool
  toStr : Except String String

/-- Notebook: `cvt_to_string` — return `str(v)`, with `'N/A'` for the empty
string and for any raised exception (the bare `except` catches everything). -/
def cvt_to_string (v : PyVal) : String :=
  match v.eqEmpty with
  | Except.error _ => "N/A"
  | Except.ok true => "N/A"
  | Except.ok false =>
    match v.toStr with
    | Except.error _ => "N/A"
    | Except.ok s => s

/-! Helper lemmas about the group model. -/

theorem groupVals_cons {K : Type} [DecidableEq K] (k0 : K) (ks : List K) (v : ℚ)
    (vs : List ℚ) (k : K) :
    groupVals (k0 :: ks) (v :: vs) k =
      if k0 = k then v :: groupVals ks vs k else groupVals ks vs k := by
  by_cases h : k0 = k <;> simp [groupVals, groupRows, List.filter_cons, h]

theorem groupVals_nil_left {K : Type} [DecidableEq K] (vals : List ℚ) (k : K) :
    groupVals ([] : List K) vals k = [] := rfl

theorem groupVals_nil_right {K : Type} [DecidableEq K] (keys : List K) (k : K) :
    groupVals keys ([] : List ℚ) k = [] := by
  cases keys <;> rfl

theorem groupVals_map {K : Type} [DecidableEq K] (f : ℚ → ℚ) :
    ∀ (keys : List K) (vals : List ℚ) (k : K),
      groupVals keys (vals.map f) k = (groupVals keys vals k).map f := by
  intro keys
  induction keys with
  | nil => intro vals k; simp [groupVals_nil_left]
  | cons k0 ks ih =>
    intro vals k
    cases vals with
    | nil => simp [groupVals_nil_right]
    | cons v vs =>
      simp only [List.map_cons, groupVals_cons]
      by_cases h : k0 = k
      · simp [h, ih vs k]
      · simp [h, ih vs k]

theorem groupVals_length {K : Type} [DecidableEq K] :
    ∀ (keys : List K) (vals : List ℚ) (k : K), keys.length = vals.length →
      (groupVals keys vals k).length = groupCount keys k := by
  intro keys
  induction keys with
  | nil => intro vals k _; simp [groupVals_nil_left, groupCount]
  | cons k0 ks ih =>
    intro vals k h
    cases vals with
    | nil => simp at h
    | cons v vs =>
      simp only [List.length_cons, Nat.succ.injEq] at h
      simp only [groupVals_cons, groupCount, List.count_cons]
      by_cases hk : k0 = k
      · simp [hk, ih vs k h, groupCount]
      · have : ¬(k = k0) := fun he => hk he.symm
        simp [hk, this, ih vs k h, groupCount]

theorem flatMap_congr_mem {α β : Type} :
    ∀ (l : List α) (f g : α → List β), (∀ a ∈ l, f a = g a) →
      l.flatMap f = l.flatMap g := by
  intro l
  induction l with
  | nil => intro f g _; rfl
  | cons a l ih =>
    intro f g h
    simp only [List.flatMap_cons, h a (List.mem_cons_self a l),
      ih f g (fun x hx => h x (List.mem_cons_of_mem a hx))]

theorem flatMap_filter_perm {K : Type} [DecidableEq K] :
    ∀ (ks : List K) (l : List (K × ℚ)), ks.Nodup → (∀ p ∈ l, p.1 ∈ ks) →
      (ks.flatMap (fun k => l.filter (fun p => decide (p.1 = k)))).Perm l := by
  intro ks
  induction ks with
  | nil =>
    intro l _ hall
    have hl : l = [] := List.eq_nil_iff_forall_not_mem.mpr
      (fun p hp => by simpa using hall p hp)
    simp [hl]
  | cons k ks ih =>
    intro l hnd hall
    obtain ⟨hk, hks⟩ := List.nodup_cons.mp hnd
    have hall2 : ∀ p ∈ l.filter (fun p => !decide (p.1 = k)), p.1 ∈ ks := by
      intro p hp
      obtain ⟨hpl, hpb⟩ := List.mem_filter.mp hp
      have hne : p.1 ≠ k := by simpa using hpb
      cases List.mem_cons.mp (hall p hpl) with
      | inl he => exact absurd he hne
      | inr hm => exact hm
    have step : ∀ k2 ∈ ks,
        List.filter (fun p => decide (p.1 = k2)) l =
        List.filter (fun p => decide (p.1 = k2))
          (l.filter (fun p => !decide (p.1 = k))) := by
      intro k2 hk2
      have hne : k2 ≠ k := fun he => hk (he ▸ hk2)
      rw [List.filter_filter]
      apply List.filter_congr
      intro p _
      by_cases hp : p.1 = k2
      · simp [hp, hne]
      · simp [hp]
    rw [List.flatMap_cons, flatMap_congr_mem ks _ _ step]
    exact (List.Perm.append_left _
      (ih (l.filter (fun p => !decide (p.1 = k))) hks hall2)).trans
      (List.filter_append_perm _ l)

theorem maskFilter_cons {α : Type} (b : Bool) (ms : List Bool) (x : α) (xs : List α) :
    maskFilter (b :: ms) (x :: xs) =
      if b then x :: maskFilter ms xs else maskFilter ms xs := by
  cases b <;> simp [maskFilter, List.filter_cons]

theorem maskFilter_nil_left {α : Type} (col : List α) :
    maskFilter [] col = [] := rfl

theorem maskFilter_nil_right {α : Type} (mask : List Bool) :
    maskFilter mask ([] : List α) = [] := by
  cases mask <;> rfl

theorem maskFilter_sublist {α : Type} :
    ∀ (mask : List Bool) (col : List α), (maskFilter mask col).Sublist col := by
  intro mask
  induction mask with
  | nil => intro col; simp [maskFilter_nil_left]
  | cons b ms ih =>
    intro col
    cases col with
    | nil => simp [maskFilter_nil_right]
    | cons x xs =>
      rw [maskFilter_cons]
      cases b with
      | false => exact List.Sublist.cons x (ih xs)
      | true => simpa using List.Sublist.cons₂ x (ih xs)

theorem maskFilter_length {α : Type} :
    ∀ (mask : List Bool) (col : List α), col.length = mask.length →
      (maskFilter mask col).length = mask.count true := by
  intro mask
  induction mask with
  | nil => intro col _; simp [maskFilter_nil_left]
  | cons b ms ih =>
    intro col h
    cases col with
    | nil => simp at h
    | cons x xs =>
      simp only [List.length_cons, Nat.succ.injEq] at h
      rw [maskFilter_cons]
      cases b with
      | false => simp [ih xs h, List.count_cons]
      | true => simp [ih xs h, List.count_cons]

theorem maskFilter_eq_nil {α : Type} :
    ∀ (mask : List Bool), (∀ b ∈ mask, b = false) → ∀ (col : List α),
      maskFilter mask col = [] := by
  intro mask
  induction mask with
  | nil => intro _ col; simp [maskFilter_nil_left]
  | cons b ms ih =>
    intro h col
    have hb : b = false := h b (List.mem_cons_self b ms)
    have hms : ∀ x ∈ ms, x = false := fun x hx => h x (List.mem_cons_of_mem b hx)
    cases col with
    | nil => simp [maskFilter_nil_right]
    | cons x xs => rw [maskFilter_cons, hb]; simpa using ih hms xs

/-! Claim theorems. -/

/-- C3: broadcasting the per-group mean back to rows yields a column of the
original row count in row order, in which every row's value equals the mean
of that row's group, the mean being recomputed independently as sum over
length of the group's extracted value list: each row receives exactly one
mean, with no fan-out or fan-in. -/
theorem broadcast_mean_per_row {K : Type} [DecidableEq K] (keys : List K)
    (fare : List ℚ) (h : keys.length = fare.length) :
    (fare_mean keys fare).length = keys.length ∧
    fare_mean keys fare =
      keys.map (fun k =>
        (groupVals keys fare k).sum / ((groupVals keys fare k).length : ℚ)) := by
  constructor
  · simp [fare_mean, broadcast]
  · simp only [fare_mean, broadcast]
    apply List.map_congr_left
    intro k _
    rw [mf, groupVals_length keys fare k h]
    rfl

/-- C3 witness at a concrete three-row, two-group table. -/
theorem broadcast_mean_per_row_witness :
    (fare_mean ([0, 0, 1] : List ℕ) ([1, 3, 5] : List ℚ)).length =
      ([0, 0, 1] : List ℕ).length ∧
    fare_mean ([0, 0, 1] : List ℕ) ([1, 3, 5] : List ℚ) =
      ([0, 0, 1] : List ℕ).map (fun k =>
        (groupVals [0, 0, 1] ([1, 3, 5] : List ℚ) k).sum /
          ((groupVals [0, 0, 1] ([1, 3, 5] : List ℚ) k).length : ℚ)) :=
  broadcast_mean_per_row [0, 0, 1] [1, 3, 5] rfl

/-- C4: the per-group value `sf` is exactly the single-pass two-moment
variance of the group's raw fare values, sum-of-squares over count minus the
square of sum over count, derived from the per-group aggregates alone. -/
theorem sf_two_moment {K : Type} [DecidableEq K] (keys : List K) (vals : List ℚ)
    (k : K) (h : keys.length = vals.length) :
    sf keys vals k =
      ((groupVals keys vals k).map (fun x => x ^ 2)).sum /
          ((groupVals keys vals k).length : ℚ)
        - ((groupVals keys vals k).sum / ((groupVals keys vals k).length : ℚ)) ^ 2 := by
  rw [sf, mf, groupVals_length keys vals k h]
  rw [show groupSum keys (vals.map (fun x => x ^ 2)) k =
        ((groupVals keys vals k).map (fun x => x ^ 2)).sum by
    rw [groupSum, groupVals_map]]
  rfl

/-- C4 witness at a concrete table: group 1 holds the values 1 and 3. -/
theorem sf_two_moment_witness :
    sf ([0, 1, 1] : List ℕ) ([5, 1, 3] : List ℚ) 1 =
      ((groupVals [0, 1, 1] ([5, 1, 3] : List ℚ) 1).map (fun x => x ^ 2)).sum /
          ((groupVals [0, 1, 1] ([5, 1, 3] : List ℚ) 1).length : ℚ)
        - ((groupVals [0, 1, 1] ([5, 1, 3] : List ℚ) 1).sum /
            ((groupVals [0, 1, 1] ([5, 1, 3] : List ℚ) 1).length : ℚ)) ^ 2 :=
  sf_two_moment [0, 1, 1] [5, 1, 3] 1 rfl

/-- C6: grouping partitions the rows exactly — every row's key occurs exactly
once among the unique group keys (each row is assigned to exactly one group),
and the concatenation of the per-group row subsets is a permutation of the
original row table, so no row is dropped or duplicated. -/
theorem grouping_partitions {K : Type} [DecidableEq K] (keys : List K)
    (vals : List ℚ) :
    (∀ k ∈ keys, (uniqueKeys keys).count k = 1) ∧
    ((uniqueKeys keys).flatMap (fun k => groupRows keys vals k)).Perm
      (keys.zip vals) := by
  constructor
  · intro k hk
    exact List.count_eq_one_of_mem (List.nodup_dedup keys) (List.mem_dedup.mpr hk)
  · exact flatMap_filter_perm keys.dedup (keys.zip vals) (List.nodup_dedup keys)
      (fun p hp => List.mem_dedup.mpr (List.of_mem_zip hp).1)

/-- C6 witness at a concrete table with an interleaved duplicate key. -/
theorem grouping_partitions_witness :
    (uniqueKeys ([0, 1, 0] : List ℕ)).count 0 = 1 ∧
    ((uniqueKeys ([0, 1, 0] : List ℕ)).flatMap
        (fun k => groupRows [0, 1, 0] ([1, 2, 3] : List ℚ) k)).Perm
      (([0, 1, 0] : List ℕ).zip ([1, 2, 3] : List ℚ)) :=
  ⟨(grouping_partitions [0, 1, 0] ([1, 2, 3] : List ℚ)).1 0 (by decide),
   (grouping_partitions [0, 1, 0] ([1, 2, 3] : List ℚ)).2⟩

/-- C7: a singleton group (its key occurs in exactly one row) has computed
spread exactly 0: with the single value x, sum-of-squares over 1 minus the
squared mean is x ^ 2 - x ^ 2 = 0, so the value stored in `fare_std` is 0
(and so is its square root, the standard deviation). -/
theorem singleton_group_sf_zero {K : Type} [DecidableEq K] (keys : List K)
    (vals : List ℚ) (k : K) (h : keys.length = vals.length)
    (h1 : groupCount keys k = 1) :
    sf keys vals k = 0 := by
  have hl : (groupVals keys vals k).length = 1 := by
    rw [groupVals_length keys vals k h, h1]
  obtain ⟨x, hx⟩ := List.length_eq_one.mp hl
  rw [sf, mf, h1]
  rw [show groupSum keys (vals.map (fun x => x ^ 2)) k =
        ((groupVals keys vals k).map (fun x => x ^ 2)).sum by
    rw [groupSum, groupVals_map]]
  rw [groupSum, hx]
  simp

/-- C7 witness: key 1 occurs exactly once, and its `sf` value is 0. -/
theorem singleton_group_sf_zero_witness :
    groupCount ([0, 1] : List ℕ) 1 = 1 ∧
    sf ([0, 1] : List ℕ) ([5, 9] : List ℚ) 1 = 0 :=
  ⟨by decide, singleton_group_sf_zero [0, 1] [5, 9] 1 rfl (by decide)⟩

/-- C8: when no row's z-score exceeds the threshold 2, filtering the table
with the `exorbitant` mask returns the empty table — every column, original
or derived, is still present under its name but holds zero rows — and no
error is possible (the filter is a total function). -/
theorem empty_threshold_filter (zs : List ℚ) (tbl : List (String × List ℚ))
    (h : ∀ z ∈ zs, z ≤ 2) :
    filterTable (exorbitant zs) tbl = tbl.map (fun c => (c.1, ([] : List ℚ))) := by
  have hmask : ∀ b ∈ exorbitant zs, b = false := by
    intro b hb
    simp only [exorbitant, List.mem_map] at hb
    obtain ⟨z, hz, hb2⟩ := hb
    rw [← hb2]
    simpa using not_lt.mpr (h z hz)
  rw [filterTable]
  exact List.map_congr_left (fun c _ => by rw [maskFilter_eq_nil _ hmask c.2])

/-- C8 witness: a three-row table in which every z-score is at most 2. -/
theorem empty_threshold_filter_witness :
    filterTable (exorbitant ([0, 1, -3] : List ℚ))
        [("fare_z", ([0, 1, -3] : List ℚ))] =
      ([("fare_z", ([0, 1, -3] : List ℚ))]).map (fun c => (c.1, ([] : List ℚ))) :=
  empty_threshold_filter [0, 1, -3] [("fare_z", [0, 1, -3])] (by decide)

/-- C9: a boolean-mask filtering step builds the new table by applying the
one mask to every column: column names survive in order, every result column
has length equal to the number of true mask entries, and every result column
is a sublist (order-preserving selection) of the corresponding source
column; the source table itself is untouched (the filter is a pure function
returning a new table). -/
theorem mask_filter_all_columns (mask : List Bool) (tbl : List (String × List ℚ))
    (h : ∀ c ∈ tbl, c.2.length = mask.length) :
    List.Forall₂
      (fun c d => d.1 = c.1 ∧ d.2.length = mask.count true ∧ d.2.Sublist c.2)
      tbl (filterTable mask tbl) := by
  rw [filterTable, List.forall₂_map_right_iff, List.forall₂_same]
  intro c hc
  exact ⟨rfl, maskFilter_length mask c.2 (h c hc), maskFilter_sublist mask c.2⟩

/-- C9 witness: the non-negative-fare mask of the notebook applied to a
concrete one-column table with a negative fare in the middle. -/
theorem mask_filter_all_columns_witness :
    List.Forall₂
      (fun c d => d.1 = c.1 ∧
        d.2.length = (non_neg ([1, -2, 3] : List ℚ)).count true ∧ d.2.Sublist c.2)
      [("fare_amount", ([1, -2, 3] : List ℚ))]
      (filterTable (non_neg ([1, -2, 3] : List ℚ))
        [("fare_amount", ([1, -2, 3] : List ℚ))]) :=
  mask_filter_all_columns (non_neg [1, -2, 3])
    [("fare_amount", [1, -2, 3])] (by simp [non_neg])

/-- C10: `cvt_to_string` is total and never propagates an exception: for
every input it returns a string, namely 'N/A' when the comparison with the
empty string raises, when the comparison returns true (the input equals the
empty string), or when the conversion raises, and the converted string
itself otherwise. -/
theorem cvt_to_string_total (v : PyVal) :
    (v.eqEmpty = Except.ok true ∧ cvt_to_string v = "N/A") ∨
    ((∃ e, v.eqEmpty = Except.error e) ∧ cvt_to_string v = "N/A") ∨
    (v.eqEmpty = Except.ok false ∧ (∃ e, v.toStr = Except.error e) ∧
      cvt_to_string v = "N/A") ∨
    (v.eqEmpty = Except.ok false ∧ ∃ s, v.toStr = Except.ok s ∧
      cvt_to_string v = s) := by
  obtain ⟨he, hs⟩ := v
  cases he with
  | error e => exact Or.inr (Or.inl ⟨⟨e, rfl⟩, rfl⟩)
  | ok b =>
    cases b with
    | true => exact Or.inl ⟨rfl, rfl⟩
    | false =>
      cases hs with
      | error e => exact Or.inr (Or.inr (Or.inl ⟨rfl, ⟨e, rfl⟩, rfl⟩))
      | ok s => exact Or.inr (Or.inr (Or.inr ⟨rfl, s, rfl, rfl⟩))

/-- C1: on the two-group table with group A (key 0) fares 10, 10, 10 and
group B (key 1) fares 0, 20, the notebook's `fare_std` column holds the raw
two-moment variance of each group — 100 for group B — and not
sqrt(max(variance, 0)) = sqrt(max(100, 0)) = 10 as the claim states: no
square root and no clamping occur anywhere in the pipeline. -/
theorem fare_std_is_variance_not_sqrt :
    fare_std ([0, 0, 0, 1, 1] : List ℕ) ([10, 10, 10, 0, 20] : List ℚ) =
      ([0, 0, 0, 100, 100] : List ℚ) ∧
    Real.sqrt (max (100 : ℝ) 0) = 10 ∧ (100 : ℝ) ≠ Real.sqrt (max (100 : ℝ) 0) := by
  have hs : Real.sqrt (max (100 : ℝ) 0) = 10 := by
    rw [max_eq_left (by norm_num : (0 : ℝ) ≤ 100)]
    rw [show (100 : ℝ) = 10 ^ 2 by norm_num]
    exact Real.sqrt_sq (by norm_num)
  refine ⟨?_, hs, ?_⟩
  · norm_num [fare_std, broadcast, sf, mf, groupSum, groupVals, groupRows,
      groupCount, List.count_cons, List.filter_cons]
  · rw [hs]; norm_num

/-- C2: on the claim's own synthetic two-group table (group A with key 0 and
fares 10, 10, 10, group B with key 1 and fares 0, 20) the code's z-scores
are 0, 0, 0, -10/101, 10/101 — group A matches the claim, but group B gets
(0 - 10) / (100 + 1) and (20 - 10) / (100 + 1), because the denominator adds
1 to the group variance held in `fare_std`, not to the standard deviation;
the claimed values -10/11 and 10/11 differ from the computed ones. -/
theorem fare_z_divides_by_variance :
    fare_z ([0, 0, 0, 1, 1] : List ℕ) ([10, 10, 10, 0, 20] : List ℚ) =
      ([0, 0, 0, -10/101, 10/101] : List ℚ) ∧
    ((-10 : ℚ)/101 ≠ -10/11) ∧ ((10 : ℚ)/101 ≠ 10/11) := by
  refine ⟨?_, by norm_num, by norm_num⟩
  norm_num [fare_z, fare_mean, fare_std, broadcast, sf, mf, groupSum, groupVals,
    groupRows, groupCount, List.count_cons, List.filter_cons]

/-- C5: on the synthetic two-group table, `argmax` of the z-score column
does return 4, the index of the row holding fare 20 (and on a tied column it
returns the first occurrence), but the maximum z-score is 10/101, not the
claimed 10/11 = 0.909..., again because `fare_std` holds the variance. -/
theorem argmax_fare_z_eval :
    argmax (fare_z ([0, 0, 0, 1, 1] : List ℕ) ([10, 10, 10, 0, 20] : List ℚ)) = 4 ∧
    (fare_z ([0, 0, 0, 1, 1] : List ℕ) ([10, 10, 10, 0, 20] : List ℚ)).maximum =
      ((10 : ℚ)/101 : ℚ) ∧
    ((10 : ℚ)/101 ≠ 10/11) ∧
    argmax ([5, 5] : List ℚ) = 0 := by
  have hz : fare_z ([0, 0, 0, 1, 1] : List ℕ) ([10, 10, 10, 0, 20] : List ℚ) =
      ([0, 0, 0, -10/101, 10/101] : List ℚ) := by
    norm_num [fare_z, fare_mean, fare_std, broadcast, sf, mf, groupSum, groupVals,
      groupRows, groupCount, List.count_cons, List.filter_cons]
  refine ⟨?_, ?_, by norm_num, by decide⟩
  · rw [argmax, hz]
    norm_num [List.range_succ, List.getD]
  · rw [hz]
    simp [List.maximum_cons]
    norm_num
